import Mathlib

/-!
# Verification of the anki template-rendering core (pylib/anki/template.py)

This file gives a shallow embedding of the Python module `anki/template.py`
and proves the specified properties about it.

The embedding covers:

* `apply_custom_filters` (filter-chain application over rendered nodes,
  including the `FrontSide` injection special case);
* the error-handling part of `render_card` (backend failure fallback and
  blank-question substitution);
* `expand_clozes` together with the two regular expressions it uses:
  the ordinal-collection scan `{{c(\d+)::.+?}}` and the substitution
  pattern `clozeReg = (?si)\{\{(?P<tag>c)%s::(?P<content>.*?)(::(?P<hint>.*?))?\}\}`.

Regular-expression matching is embedded directly as character-list scanners
that reproduce the Python `re` backtracking order for these specific
patterns: lazy quantifiers extend one character at a time, the optional
hint group is tried before being skipped, matching is leftmost and
non-overlapping, and `re.sub`/`re.findall` resume scanning immediately
after each match.  `.` matches every character when the pattern carries
the `s` flag (the substitution pattern) and every character except `'\n'`
when it does not (the collection pattern).  The `i` flag on the
substitution pattern only affects the tag letter `c`/`C`.  `\d` is
embedded as `Char.isDigit` (ASCII digits; the inputs concerned are ASCII).
-/

namespace AnkiTemplate

/-! ## Filter pipeline (apply_custom_filters)

`TemplateRenderContext` is embedded with the only observable the filter
code passes on: `ctx.fields()`.  Rendered nodes
(`TemplateReplacementList`) are either plain strings or replacement
nodes carrying `field_name`, `current_text` and the pending filter list.
The two hook invocations (`hooks.field_filter` and the legacy
`anki.hooks.runFilter`) live in the external `hooks` module, so
`applyCustomFilters` is parametrised by those two capabilities with the
exact argument lists used at the call sites. -/

structure Ctx where
  fields : List (String × String)

inductive PyNode where
  | str (s : String)
  | repl (field_name : String) (current_text : String) (filters : List String)
deriving DecidableEq

/-- The `hooks.field_filter(field_text, field_name, filter_name, ctx)` capability. -/
abbrev FieldFilterFn := String → String → String → Ctx → String

/-- The legacy `anki.hooks.runFilter(name, txt, extra, fields, field_name, extra2)` capability. -/
abbrev RunFilterFn := String → String → String → List (String × String) → String → String → String

/-- One filter step of the loop body in `apply_custom_filters`:
`field_text = hooks.field_filter(field_text, node.field_name, filter_name, ctx)`
followed by
`field_text = anki.hooks.runFilter("fmod_" + filter_name, field_text, "", ctx.fields(), node.field_name, "")`. -/
def filterStep (ff : FieldFilterFn) (rf : RunFilterFn) (ctx : Ctx)
    (field_name t filter_name : String) : String :=
  rf ("fmod_" ++ filter_name) (ff t field_name filter_name ctx) "" ctx.fields field_name ""

/-- Rendering of a single node in the `for node in rendered` loop:
a string node is appended verbatim; a replacement node first gets its
text overridden by `front_side` when `field_name == "FrontSide"` and
`front_side is not None`, then the filter list is folded left-to-right
with `filterStep`. -/
def renderNode (ff : FieldFilterFn) (rf : RunFilterFn) (ctx : Ctx)
    (front_side : Option String) : PyNode → String
  | .str s => s
  | .repl fname cur filters =>
    let t0 := if fname = "FrontSide" then
        match front_side with
        | some fs => fs
        | none => cur
      else cur
    filters.foldl (fun t f => filterStep ff rf ctx fname t f) t0

/-- The accumulation `res = ""; for node in rendered: res += ...`. -/
def renderNodes (ff : FieldFilterFn) (rf : RunFilterFn) (ctx : Ctx)
    (front_side : Option String) (nodes : List PyNode) : String :=
  nodes.foldl (fun acc n => acc ++ renderNode ff rf ctx front_side n) ""

/-- `apply_custom_filters(rendered, ctx, front_side)`: the fast path
returns a lone string node unchanged; otherwise the nodes are rendered
and concatenated. -/
def applyCustomFilters (ff : FieldFilterFn) (rf : RunFilterFn)
    (rendered : List PyNode) (ctx : Ctx) (front_side : Option String) : String :=
  match rendered with
  | [PyNode.str s] => s
  | l => renderNodes ff rf ctx front_side l

/-- Modelled from the spec: the `hooks` module is not under `src/`.
The primary filter-handler registry is a process-wide list of callables;
`hooks.field_filter` asks each registered handler in registration order,
each handler receiving (text so far, field name, filter name, context)
and returning the (possibly unchanged) text. -/
def fieldFilterRun (prim : List FieldFilterFn) : FieldFilterFn :=
  fun t fname filt ctx => prim.foldl (fun acc h => h acc fname filt ctx) t

/-- Modelled from the spec: the `hooks` module is not under `src/`.
The legacy registry maps hook names to lists of callables;
`runFilter(name, txt, *args)` folds the callables registered under
`name` over the text, and is the identity when no callable is
registered under `name`. -/
def runFilterLegacy (leg : List (String × (String → String → List (String × String) → String → String → String))) : RunFilterFn :=
  fun key t a fields fname b =>
    (leg.filter (fun e => e.1 = key)).foldl (fun acc e => e.2 acc a fields fname b) t

/-! ## render_card error handling

`render_card` is embedded from the point where the data has been
collected: the external renderer (`render_card_from_context`, which
calls the backend) either produces a `TemplateRenderOutput` or raises a
`BackendException` carrying a message.  The localisation function `_`
and the constant `HELP_SITE` are external, so they are parameters.
The embedding covers lines 119-134 of the source; the subsequent
`hooks.card_did_render` notification is an external hook and is outside
the rendered-output computation. -/

structure TROutput (α : Type) where
  question_text : String
  answer_text : String
  question_av_tags : List α
  answer_av_tags : List α
deriving DecidableEq

/-- Python whitespace for `str.strip()` (ASCII range): space, tab,
newline, carriage return, vertical tab, form feed. -/
def isPySpace (c : Char) : Bool :=
  c = ' ' || c = '\t' || c = '\n' || c = '\r' || c = Char.ofNat 11 || c = Char.ofNat 12

/-- `str.strip()`: remove leading and trailing whitespace. -/
def pyStrip (s : String) : String :=
  String.mk (((s.data.dropWhile isPySpace).reverse.dropWhile isPySpace).reverse)

/-- The synthesized error message of the `except BackendException` arm:
`_("Card template has a problem:") + f"<br>{e}"`. -/
def problemMsg (tr : String → String) (e : String) : String :=
  tr "Card template has a problem:" ++ "<br>" ++ e

/-- The blank-front substitution message:
`_("The front of this card is blank.")` followed by the help link. -/
def blankMsg (tr : String → String) (helpSite : String) : String :=
  tr "The front of this card is blank." ++ "<a href='" ++ helpSite ++ "'>" ++ tr "More info" ++ "</a>"

/-- `render_card`, lines 119-134: try the renderer; on a backend
exception substitute the synthesized error message as both question and
answer with empty AV-tag lists; then, if the question text strips to
empty, replace it by the blank-front message. -/
def renderCardPy {α : Type} (tr : String → String) (helpSite : String)
    (rendered : Except String (TROutput α)) : TROutput α :=
  let output := match rendered with
    | .ok o => o
    | .error e => ⟨problemMsg tr e, problemMsg tr e, [], []⟩
  if pyStrip output.question_text = "" then
    { output with question_text := blankMsg tr helpSite }
  else output

/-! ## Cloze machinery

The body of `clozeReg` after the interpolated ordinal part is
`::(?P<content>.*?)(::(?P<hint>.*?))?\}\}` (with the `s` flag).
The backtracking engine extends `content` one character at a time; at
each stop it first tries the optional hint group (requiring `::` here
and then the nearest later `}}`), then closing directly with `}}`. -/

/-- Split a character list at the first occurrence of `}}`:
returns (characters before, characters after). -/
def findBB : List Char → Option (List Char × List Char)
  | [] => none
  | [_] => none
  | x :: y :: r =>
    if x = '}' ∧ y = '}' then some ([], r)
    else (findBB (y :: r)).map (fun p => (x :: p.1, p.2))

/-- Match of `(?P<content>.*?)(::(?P<hint>.*?))?\}\}` in Python
backtracking order: returns (content, optional hint, rest after `}}`). -/
def clozeBody : List Char → Option (List Char × Option (List Char) × List Char)
  | [] => none
  | [_] => none
  | x :: y :: r =>
    if x = '}' ∧ y = '}' then some ([], none, r)
    else if x = ':' ∧ y = ':' then
      match findBB r with
      | some (h, rst) => some ([], some h, rst)
      | none => (clozeBody (y :: r)).map (fun p => (x :: p.1, p.2.1, p.2.2))
    else (clozeBody (y :: r)).map (fun p => (x :: p.1, p.2.1, p.2.2))

/-- The characters consumed by a `clozeBody` match with the given groups:
`content}}` when the hint group is absent, `content::hint}}` when present. -/
def bodyChunk (c : List Char) (h : Option (List Char)) : List Char :=
  c ++ (match h with
    | none => ['}', '}']
    | some hh => ':' :: ':' :: (hh ++ ['}', '}']))

/-- Strip an exact literal from the front of a list. -/
def stripPre : List Char → List Char → Option (List Char)
  | [], r => some r
  | _ :: _, [] => none
  | a :: o, b :: r => if a = b then stripPre o r else none

/-- A match of the substitution pattern: the full matched span and the
`content` and `hint` groups. -/
structure CM where
  matched : List Char
  content : List Char
  hint : Option (List Char)
deriving DecidableEq

/-- Head match of `clozeReg % ord` for a literal (digit-string) ordinal
`o`: `\{\{(?P<tag>c)` (case-insensitive tag), then `o` literally, then
`::`, then the body. -/
def matchOrd (o : List Char) : List Char → Option (CM × List Char)
  | a :: b :: t :: r =>
    if a = '{' ∧ b = '{' ∧ (t = 'c' ∨ t = 'C') then
      match stripPre o r with
      | some r1 =>
        match r1 with
        | c1 :: c2 :: r2 =>
          if c1 = ':' ∧ c2 = ':' then
            match clozeBody r2 with
            | some (c, h, rest) =>
              some (⟨a :: b :: t :: (o ++ c1 :: c2 :: bodyChunk c h), c, h⟩, rest)
            | none => none
          else none
        | _ => none
      | none => none
    else none
  | _ => none

/-- Lazy scan for `.+?::` continuation of `clozeReg % ".+?"`: after at
least one consumed character, find the first `::` from which the body
matches; on body failure the engine extends the lazy infix by one
character.  Returns (skipped characters, content, hint, rest). -/
def midScan : List Char → Option (List Char × List Char × Option (List Char) × List Char)
  | [] => none
  | [_] => none
  | x :: y :: r =>
    if x = ':' ∧ y = ':' then
      match clozeBody r with
      | some (c, h, rest) => some ([], c, h, rest)
      | none => (midScan (y :: r)).map (fun p => (x :: p.1, p.2))
    else (midScan (y :: r)).map (fun p => (x :: p.1, p.2))

/-- Head match of `clozeReg % ".+?"` (the answer-reveal pattern):
`\{\{(?P<tag>c)` then a lazy non-empty infix, `::`, and the body. -/
def matchAny : List Char → Option (CM × List Char)
  | a :: b :: t :: x :: r =>
    if a = '{' ∧ b = '{' ∧ (t = 'c' ∨ t = 'C') then
      match midScan r with
      | some (sk, c, h, rest) =>
        some (⟨a :: b :: t :: x :: (sk ++ ':' :: ':' :: bodyChunk c h), c, h⟩, rest)
      | none => none
    else none
  | _ => none

/-- Maximal run of ASCII digits (`\d+` followed by a non-digit). -/
def takeDigits : List Char → List Char × List Char
  | [] => ([], [])
  | x :: r =>
    if x.isDigit then
      let p := takeDigits r
      (x :: p.1, p.2)
    else ([], x :: r)

/-- Lazy `.+?` (without the `s` flag, so `'\n'` is excluded) followed by
`}}`: at least one character, stopping at the nearest `}}`.  Returns
(consumed characters, rest after `}}`). -/
def dotPlusBB : List Char → Option (List Char × List Char)
  | x :: y :: z :: r =>
    if x = '\n' then none
    else if y = '}' ∧ z = '}' then some ([x], r)
    else (dotPlusBB (y :: z :: r)).map (fun p => (x :: p.1, p.2))
  | _ => none

/-- A match of the ordinal-collection pattern `{{c(\d+)::.+?}}`:
the full matched span and the captured digit group. -/
structure CollM where
  matched : List Char
  ds : List Char
deriving DecidableEq

/-- Head match of the collection pattern `{{c(\d+)::.+?}}` (no flags:
case-sensitive `c`, `.` excludes newline). -/
def matchColl : List Char → Option (CollM × List Char)
  | a :: b :: t :: r =>
    if a = '{' ∧ b = '{' ∧ t = 'c' then
      match takeDigits r with
      | ([], _) => none
      | (d :: ds, r1) =>
        match r1 with
        | c1 :: c2 :: r2 =>
          if c1 = ':' ∧ c2 = ':' then
            match dotPlusBB r2 with
            | some (cs, rest) =>
              some (⟨a :: b :: t :: ((d :: ds) ++ c1 :: c2 :: (cs ++ ['}', '}'])), d :: ds⟩, rest)
            | none => none
          else none
        | _ => none
    else none
  | _ => none

/-- Leftmost non-overlapping scan, as performed by `re.sub` and
`re.findall`: try the head matcher at each position; on a match, emit a
piece (pending literal, match) and resume after the match.  `fuel`
bounds the recursion; every step consumes at least one character, so
`l.length + 1` fuel is always enough. -/
def scanPF {R : Type} (m : List Char → Option (R × List Char)) :
    Nat → List Char → List (List Char × R) × List Char
  | 0, l => ([], l)
  | _ + 1, [] => ([], [])
  | fuel + 1, x :: r =>
    match m (x :: r) with
    | some (res, rest) =>
      (([], res) :: (scanPF m fuel rest).1, (scanPF m fuel rest).2)
    | none =>
      match scanPF m fuel r with
      | ([], tail) => ([], x :: tail)
      | ((lit, res2) :: ps, tail) => ((x :: lit, res2) :: ps, tail)

/-- Reassemble scan pieces, mapping each match through `f`. -/
def renderP {R : Type} (f : R → List Char) : List (List Char × R) → List Char → List Char
  | [], tail => tail
  | (lit, res) :: ps, tail => lit ++ (f res ++ renderP f ps tail)

/-- `re.sub(pattern, repl, l)` for a head matcher `m` and a replacement
function `f` on match data. -/
def pySub {R : Type} (m : List Char → Option (R × List Char)) (f : R → List Char)
    (l : List Char) : List Char :=
  let p := scanPF m (l.length + 1) l
  renderP f p.1 p.2

/-- `qrepl`: `"[%s]" % hint` when the hint group is truthy (present and
non-empty), else the literal `"[...]"`.  Python truthiness makes an
empty hint fall to `"[...]"`. -/
def qreplC (res : CM) : List Char :=
  match res.hint with
  | some h => if h = [] then ['[', '.', '.', '.', ']'] else '[' :: (h ++ [']'])
  | none => ['[', '.', '.', '.', ']']

/-- `arepl`: the bare content group. -/
def areplC (res : CM) : List Char := res.content

/-- First-seen-order deduplication (the embedding's chosen deterministic
iteration order for Python's unordered `set`). -/
def dedupAux (seen : List (List Char)) : List (List Char) → List (List Char)
  | [] => []
  | x :: r => if x ∈ seen then dedupAux seen r else x :: dedupAux (x :: seen) r

/-- All matches of the collection pattern in a character list. -/
def collMatchesL (l : List Char) : List (List Char × CollM) :=
  (scanPF matchColl (l.length + 1) l).1

/-- `ords = set(re.findall(r"{{c(\d+)::.+?}}", string))`: the distinct
captured digit groups, in first-seen order. -/
def collOrds (s : String) : List (List Char) :=
  dedupAux [] ((collMatchesL s.data).map (fun p => p.2.ds))

/-- `re.sub(clozeReg % ".+?", arepl, l)`: reveal every span matched by
the answer pattern. -/
def revealAllL (l : List Char) : List Char := pySub matchAny areplC l

/-- One per-ordinal variant: `re.sub(clozeReg % ord, qrepl, string)`
followed by `re.sub(clozeReg % ".+?", arepl, ·)`. -/
def qaVariant (o : List Char) (s : String) : String :=
  String.mk (revealAllL (pySub (matchOrd o) qreplC s.data))

/-- The fully revealed variant of a string. -/
def revealAll (s : String) : String := String.mk (revealAllL s.data)

/-- `expand_clozes(string)`: one question-style variant per collected
ordinal, then the fully revealed variant. -/
def expandClozes (s : String) : List String :=
  (collOrds s).map (fun o => qaVariant o s) ++ [revealAll s]

/-- Modelled from the spec: the spec's notion of a cloze marker is
`{{c<digits>::content(::hint)?}}` with a case-insensitive tag letter,
non-greedy newline-spanning content and an optional hint; this matcher
recognises exactly such markers (digits required after the tag), used to
state "the input with every cloze marker replaced by its bare content". -/
def matchSpecMarker : List Char → Option (CM × List Char)
  | a :: b :: t :: r =>
    if a = '{' ∧ b = '{' ∧ (t = 'c' ∨ t = 'C') then
      match takeDigits r with
      | ([], _) => none
      | (d :: ds, r1) =>
        match r1 with
        | c1 :: c2 :: r2 =>
          if c1 = ':' ∧ c2 = ':' then
            match clozeBody r2 with
            | some (c, h, rest) =>
              some (⟨a :: b :: t :: ((d :: ds) ++ c1 :: c2 :: bodyChunk c h), c, h⟩, rest)
            | none => none
          else none
        | _ => none
    else none
  | _ => none

/-- Modelled from the spec: the input with every cloze marker (in the
spec's `{{c<digits>::...}}` sense) replaced by its bare content. -/
def specRevealAll (s : String) : String := String.mk (pySub matchSpecMarker areplC s.data)

/-- Whether a character list contains an occurrence of `{{c` or `{{C`
(the only way any of the cloze patterns can match). -/
def hasCOpen : List Char → Bool
  | x :: y :: z :: r =>
    (decide (x = '{' ∧ y = '{' ∧ (z = 'c' ∨ z = 'C'))) || hasCOpen (y :: z :: r)
  | _ => false

/-! ## Auxiliary definitions used only in statements -/

/-- A demonstration primary filter capability whose `"A"` and `"B"`
filters do not commute. -/
def ffDemo : FieldFilterFn :=
  fun t _ f _ => (if f = "A" then "a" else if f = "B" then "b" else "") ++ t

/-- A demonstration legacy capability that ignores every hook. -/
def rfDemo : RunFilterFn := fun _ t _ _ _ _ => t

/-- An empty render context. -/
def ctxDemo : Ctx := ⟨[]⟩

/-- The pieces of the answer-pattern scan of a string (the spans
`re.sub(clozeReg % ".+?", ...)` would rewrite, each with the literal
text preceding it). -/
def anyPieces (s : String) : List (List Char × CM) :=
  (scanPF matchAny (s.data.length + 1) s.data).1

/-- The trailing literal text after the last answer-pattern match. -/
def anyTail (s : String) : List Char :=
  (scanPF matchAny (s.data.length + 1) s.data).2

/-- The pieces of the question-pattern scan for ordinal `o`. -/
def qPieces (o : List Char) (s : String) : List (List Char × CM) :=
  (scanPF (matchOrd o) (s.data.length + 1) s.data).1

/-- The trailing literal text of the question-pattern scan for ordinal `o`. -/
def qTail (o : List Char) (s : String) : List Char :=
  (scanPF (matchOrd o) (s.data.length + 1) s.data).2

/-- Reassemble scan pieces, substituting the i-th replacement for the
i-th matched span while keeping every literal segment. -/
def renderW : List (List Char × CM) → List (List Char) → List Char → List Char
  | [], _, tail => tail
  | _ :: _, [], tail => tail
  | (lit, _) :: ps, rep :: reps, tail => lit ++ (rep ++ renderW ps reps tail)

/-- The frame property claimed of a variant `v` of input `s`: `v` agrees
with `s` on all text outside the cloze-pattern matches of `s` — some
replacement for each matched span, every literal segment and the tail
preserved unchanged and in order. -/
def VariantPreserves (s v : String) : Prop :=
  ∃ reps : List (List Char), reps.length = (anyPieces s).length
    ∧ v.data = renderW (anyPieces s) reps (anyTail s)

/-! ## String helpers -/

theorem strData_append (a b : String) : (a ++ b).data = a.data ++ b.data := by
  cases a; cases b; rfl

theorem strExt {a b : String} (h : a.data = b.data) : a = b := by
  cases a; cases b; exact congrArg String.mk h

theorem strData_mk (l : List Char) : (String.mk l).data = l := rfl

theorem strMk_data (s : String) : String.mk s.data = s := by cases s; rfl

theorem strAppend_assoc (a b c : String) : a ++ b ++ c = a ++ (b ++ c) := by
  apply strExt; simp [strData_append]

theorem strAppend_empty (s : String) : s ++ "" = s := by
  apply strExt; simp [strData_append]

theorem strEmpty_append (s : String) : "" ++ s = s := by
  apply strExt; simp [strData_append]

/-! ## Filter-pipeline lemmas -/

theorem renderNodes_go (ff : FieldFilterFn) (rf : RunFilterFn) (ctx : Ctx)
    (fs : Option String) :
    ∀ (l : List PyNode) (init : String),
      l.foldl (fun acc n => acc ++ renderNode ff rf ctx fs n) init
        = init ++ renderNodes ff rf ctx fs l := by
  intro l
  induction l with
  | nil => intro init; simp [renderNodes, strAppend_empty]
  | cons n tl ih =>
    intro init
    simp only [List.foldl_cons, renderNodes] at *
    rw [ih, ih ("" ++ renderNode ff rf ctx fs n), strEmpty_append, strAppend_assoc]

theorem renderNodes_cons (ff : FieldFilterFn) (rf : RunFilterFn) (ctx : Ctx)
    (fs : Option String) (n : PyNode) (l : List PyNode) :
    renderNodes ff rf ctx fs (n :: l) = renderNode ff rf ctx fs n ++ renderNodes ff rf ctx fs l := by
  unfold renderNodes
  rw [List.foldl_cons, renderNodes_go, strEmpty_append]
  rfl

theorem renderNodes_append (ff : FieldFilterFn) (rf : RunFilterFn) (ctx : Ctx)
    (fs : Option String) (l1 l2 : List PyNode) :
    renderNodes ff rf ctx fs (l1 ++ l2)
      = renderNodes ff rf ctx fs l1 ++ renderNodes ff rf ctx fs l2 := by
  induction l1 with
  | nil => simp [renderNodes, strEmpty_append]
  | cons n tl ih =>
    rw [List.cons_append, renderNodes_cons, renderNodes_cons, ih, strAppend_assoc]

theorem applyCustomFilters_eq_renderNodes (ff : FieldFilterFn) (rf : RunFilterFn)
    (ctx : Ctx) (fs : Option String) (l : List PyNode)
    (h : ∀ s, l ≠ [PyNode.str s]) :
    applyCustomFilters ff rf l ctx fs = renderNodes ff rf ctx fs l := by
  unfold applyCustomFilters
  rcases l with _ | ⟨n, tl⟩
  · rfl
  · rcases n with s | ⟨f, t, fl⟩
    · rcases tl with _ | ⟨n2, tl2⟩
      · exact absurd rfl (h s)
      · rfl
    · rcases tl with _ | ⟨n2, tl2⟩ <;> rfl

theorem mid_not_lone_str (pre post : List PyNode) (f t : String) (fl : List String) :
    ∀ s, pre ++ PyNode.repl f t fl :: post ≠ [PyNode.str s] := by
  intro s hEq
  rcases pre with _ | ⟨p, pr⟩
  · simp at hEq
  · simp only [List.cons_append, List.cons.injEq] at hEq
    exact absurd hEq.2 (by simp)

theorem foldl_id_of_handlers_skip (fname f : String) (ctx : Ctx) :
    ∀ (l : List FieldFilterFn),
      (∀ g ∈ l, ∀ (txt fn : String) (c : Ctx), g txt fn f c = txt) →
      ∀ t, l.foldl (fun acc g => g acc fname f ctx) t = t := by
  intro l
  induction l with
  | nil => intro _ t; rfl
  | cons g tl ih =>
    intro h t
    rw [List.foldl_cons, h g (List.mem_cons_self _ _), ih (fun g2 hg2 => h g2 (List.mem_cons_of_mem _ hg2))]

/-- C1: for a placeholder with filter list `[f1, f2]` and current text
`t`, the text contributed by the placeholder in `apply_custom_filters`
is `f2(f1(t))` — the filter list is folded left-to-right, each filter
step receiving the previous step's output — and not `f1(f2(t))`:
with the non-commuting demonstration hooks the two orders differ. -/
theorem C1_filter_fold_left_to_right :
    (∀ (ff : FieldFilterFn) (rf : RunFilterFn) (ctx : Ctx) (fname t f1 f2 : String),
      applyCustomFilters ff rf [PyNode.repl fname t [f1, f2]] ctx none
        = filterStep ff rf ctx fname (filterStep ff rf ctx fname t f1) f2)
    ∧ applyCustomFilters ffDemo rfDemo [PyNode.repl "Field" "" ["A", "B"]] ctxDemo none
        ≠ filterStep ffDemo rfDemo ctxDemo "Field" (filterStep ffDemo rfDemo ctxDemo "Field" "" "B") "A" := by
  constructor
  · intro ff rf ctx fname t f1 f2
    rw [applyCustomFilters_eq_renderNodes _ _ _ _ _ (by intro s h; simp at h),
      renderNodes_cons]
    simp [renderNodes, renderNode, strAppend_empty]
  · decide

/-- C4: a filter name with no registered handler in either chain is the
identity transform: if every primary handler declines the name and no
legacy hook is registered under `"fmod_" ++ name`, the filter step
returns its text unchanged (and, being a total function, raises
nothing). -/
theorem C4_unregistered_filter_is_identity :
    ∀ (prim : List FieldFilterFn)
      (leg : List (String × (String → String → List (String × String) → String → String → String)))
      (ctx : Ctx) (fname t f : String),
      (∀ g ∈ prim, ∀ (txt fn : String) (c : Ctx), g txt fn f c = txt) →
      (∀ e ∈ leg, e.1 ≠ "fmod_" ++ f) →
      filterStep (fieldFilterRun prim) (runFilterLegacy leg) ctx fname t f = t := by
  intro prim leg ctx fname t f hprim hleg
  unfold filterStep fieldFilterRun runFilterLegacy
  rw [foldl_id_of_handlers_skip fname f ctx prim hprim t]
  have hfil : leg.filter (fun e => decide (e.1 = "fmod_" ++ f)) = [] := by
    rw [List.filter_eq_nil_iff]
    intro e he
    simpa using hleg e he
  rw [hfil]
  rfl

theorem C4_witness :
    filterStep (fieldFilterRun []) (runFilterLegacy []) ctxDemo "Field" "x" "myfilter" = "x" :=
  C4_unregistered_filter_is_identity [] [] ctxDemo "Field" "x" "myfilter"
    (by intro g hg; simp at hg) (by intro e he; simp at he)

/-- C5: a `FrontSide` placeholder's contribution is computed from the
supplied `front_side` value when one is provided (overriding its
field-sourced text) and from its existing text when `front_side` is
absent, in any surrounding node sequence. -/
theorem C5_front_side_override :
    ∀ (ff : FieldFilterFn) (rf : RunFilterFn) (ctx : Ctx) (pre post : List PyNode)
      (t : String) (filters : List String) (fs : String),
      applyCustomFilters ff rf (pre ++ PyNode.repl "FrontSide" t filters :: post) ctx (some fs)
        = renderNodes ff rf ctx (some fs) pre
          ++ filters.foldl (fun x f => filterStep ff rf ctx "FrontSide" x f) fs
          ++ renderNodes ff rf ctx (some fs) post
      ∧ applyCustomFilters ff rf (pre ++ PyNode.repl "FrontSide" t filters :: post) ctx none
        = renderNodes ff rf ctx none pre
          ++ filters.foldl (fun x f => filterStep ff rf ctx "FrontSide" x f) t
          ++ renderNodes ff rf ctx none post := by
  intro ff rf ctx pre post t filters fs
  constructor
  · rw [applyCustomFilters_eq_renderNodes _ _ _ _ _ (mid_not_lone_str pre post _ _ _),
      renderNodes_append, renderNodes_cons, ← strAppend_assoc]
    simp [renderNode]
  · rw [applyCustomFilters_eq_renderNodes _ _ _ _ _ (mid_not_lone_str pre post _ _ _),
      renderNodes_append, renderNodes_cons, ← strAppend_assoc]
    simp [renderNode]

theorem mem_dropWhile_of_no {p : Char → Bool} {c : Char} :
    ∀ {l : List Char}, c ∈ l → p c = false → c ∈ l.dropWhile p := by
  intro l
  induction l with
  | nil => intro hc _; simp at hc
  | cons a r ih =>
    intro hc hp
    rw [List.dropWhile_cons]
    split
    · rcases List.mem_cons.mp hc with rfl | hm
      · rename_i hpa; rw [hp] at hpa; cases hpa
      · exact ih hm hp
    · exact hc

theorem pyStrip_ne_empty {s : String} {c : Char} (hc : c ∈ s.data)
    (hp : isPySpace c = false) : pyStrip s ≠ "" := by
  intro h
  have h1 := mem_dropWhile_of_no hc hp
  have h2 := List.mem_reverse.mpr h1
  have h3 := mem_dropWhile_of_no h2 hp
  have h4 := List.mem_reverse.mpr h3
  have hdata := congrArg String.data h
  rw [pyStrip] at hdata
  rw [strData_mk] at hdata
  rw [hdata] at h4
  simp at h4

/-- C9: when the external renderer fails with a backend/template error,
`render_card` returns the synthesized error message as both question
and answer text with both AV-tag lists empty; and when the rendered
question text is empty or whitespace-only, `render_card` replaces the
question text by the localized blank-front message carrying the help
link. -/
theorem C9_render_card_error_handling :
    ∀ (α : Type) (tr : String → String) (hs : String),
      (∀ e : String,
        renderCardPy (α := α) tr hs (Except.error e)
          = ⟨problemMsg tr e, problemMsg tr e, [], []⟩)
      ∧ (∀ out : TROutput α, pyStrip out.question_text = "" →
          renderCardPy tr hs (Except.ok out)
            = { out with question_text := blankMsg tr hs }) := by
  intro α tr hs
  constructor
  · intro e
    have hne : pyStrip (problemMsg tr e) ≠ "" := by
      apply pyStrip_ne_empty (c := '<')
      · rw [problemMsg, strData_append, strData_append]
        refine List.mem_append.mpr (Or.inl (List.mem_append.mpr (Or.inr ?_)))
        decide
      · decide
    simp [renderCardPy, hne]
  · intro out h
    simp [renderCardPy, h]

theorem C9_witness :
    renderCardPy (α := Nat) id "HELP" (Except.ok ⟨" ", "a", [3], []⟩)
      = ⟨blankMsg id "HELP", "a", [3], []⟩ :=
  (C9_render_card_error_handling Nat id "HELP").2 ⟨" ", "a", [3], []⟩ (by decide)

/-! ## Cloze scanner lemmas -/

theorem bodyChunk_cons (x : Char) (c : List Char) (h : Option (List Char)) :
    bodyChunk (x :: c) h = x :: bodyChunk c h := by
  simp [bodyChunk]

theorem bodyChunk_ne_nil (c : List Char) (h : Option (List Char)) :
    bodyChunk c h ≠ [] := by
  rcases c with _ | ⟨x, c⟩ <;> rcases h with _ | hh <;> simp [bodyChunk]

theorem findBB_eq :
    ∀ {l a r : List Char}, findBB l = some (a, r) → l = a ++ '}' :: '}' :: r := by
  intro l
  induction l with
  | nil => intro a r h; simp [findBB] at h
  | cons x tl ih =>
    intro a r h
    rcases tl with _ | ⟨y, tl2⟩
    · simp [findBB] at h
    · rw [findBB] at h
      split at h
      · rename_i hxy
        simp only [Option.some.injEq, Prod.mk.injEq] at h
        obtain ⟨rfl, rfl⟩ := h
        simp [hxy.1, hxy.2]
      · rcases hmap : findBB (y :: tl2) with _ | ⟨a2, r2⟩
        · rw [hmap] at h; simp at h
        · rw [hmap] at h
          simp only [Option.map_some', Option.some.injEq, Prod.mk.injEq] at h
          obtain ⟨rfl, rfl⟩ := h
          simpa using ih hmap

theorem findBB_clean :
    ∀ {h : List Char}, '}' ∉ h → ∀ (r : List Char),
      findBB (h ++ '}' :: '}' :: r) = some (h, r) := by
  intro h
  induction h with
  | nil => intro _ r; simp [findBB]
  | cons x tl ih =>
    intro hnb r
    have hx : x ≠ '}' := by
      intro hx; exact hnb (hx ▸ List.mem_cons_self _ _)
    have ih2 := ih (fun hm => hnb (List.mem_cons_of_mem _ hm)) r
    rcases tl with _ | ⟨y, tl2⟩
    · simp only [List.nil_append] at ih2
      rw [List.cons_append, List.nil_append, findBB,
        if_neg (by rintro ⟨rfl, -⟩; exact hx rfl), ih2]
      rfl
    · rw [List.cons_append] at ih2
      rw [List.cons_append, List.cons_append, findBB,
        if_neg (by rintro ⟨rfl, -⟩; exact hx rfl), ih2]
      rfl

theorem clozeBody_eq :
    ∀ {l c r : List Char} {h : Option (List Char)},
      clozeBody l = some (c, h, r) → l = bodyChunk c h ++ r := by
  intro l
  induction l with
  | nil => intro c r h hm; simp [clozeBody] at hm
  | cons x tl ih =>
    intro c r h hm
    rcases tl with _ | ⟨y, tl2⟩
    · simp [clozeBody] at hm
    · rw [clozeBody] at hm
      split at hm
      · rename_i hbb
        simp only [Option.some.injEq, Prod.mk.injEq] at hm
        obtain ⟨rfl, rfl, rfl⟩ := hm
        simp [bodyChunk, hbb.1, hbb.2]
      · split at hm
        · rename_i hcc
          rcases hfb : findBB tl2 with _ | ⟨hh, rst⟩
          · rw [hfb] at hm
            rcases hrec : clozeBody (y :: tl2) with _ | ⟨c2, h2, r2⟩
            · rw [hrec] at hm; simp at hm
            · rw [hrec] at hm
              simp only [Option.map_some', Option.some.injEq, Prod.mk.injEq] at hm
              obtain ⟨rfl, rfl, rfl⟩ := hm
              rw [bodyChunk_cons, List.cons_append]
              exact congrArg (x :: ·) (ih hrec)
          · rw [hfb] at hm
            simp only [Option.some.injEq, Prod.mk.injEq] at hm
            obtain ⟨rfl, rfl, rfl⟩ := hm
            have hbb2 := findBB_eq hfb
            simp [bodyChunk, hcc.1, hcc.2, hbb2]
        · rcases hrec : clozeBody (y :: tl2) with _ | ⟨c2, h2, r2⟩
          · rw [hrec] at hm; simp at hm
          · rw [hrec] at hm
            simp only [Option.map_some', Option.some.injEq, Prod.mk.injEq] at hm
            obtain ⟨rfl, rfl, rfl⟩ := hm
            rw [bodyChunk_cons, List.cons_append]
            exact congrArg (x :: ·) (ih hrec)

theorem clozeBody_clean_hint :
    ∀ {c : List Char}, ':' ∉ c → '}' ∉ c → ∀ {h : List Char}, '}' ∉ h →
      ∀ (r : List Char),
        clozeBody (c ++ ':' :: ':' :: (h ++ '}' :: '}' :: r)) = some (c, some h, r) := by
  intro c
  induction c with
  | nil =>
    intro _ _ h hh r
    rw [List.nil_append, clozeBody,
      if_neg (by rintro ⟨h1, -⟩; cases h1),
      if_pos ⟨rfl, rfl⟩, findBB_clean hh r]
  | cons x c2 ih =>
    intro hc hb h hh r
    have hx1 : x ≠ '}' := by intro hx; exact hb (hx ▸ List.mem_cons_self _ _)
    have hx2 : x ≠ ':' := by intro hx; exact hc (hx ▸ List.mem_cons_self _ _)
    have ih2 := ih (fun hm => hc (List.mem_cons_of_mem _ hm))
      (fun hm => hb (List.mem_cons_of_mem _ hm)) hh r
    rcases c2 with _ | ⟨y, c3⟩
    · rw [List.nil_append] at ih2
      rw [List.cons_append, List.nil_append, clozeBody,
        if_neg (by rintro ⟨h1, -⟩; exact hx1 h1),
        if_neg (by rintro ⟨h1, -⟩; exact hx2 h1), ih2]
      rfl
    · rw [List.cons_append] at ih2
      rw [List.cons_append, List.cons_append, clozeBody,
        if_neg (by rintro ⟨h1, -⟩; exact hx1 h1),
        if_neg (by rintro ⟨h1, -⟩; exact hx2 h1), ih2]
      rfl

theorem clozeBody_clean_nohint :
    ∀ {c : List Char}, ':' ∉ c → '}' ∉ c → ∀ (r : List Char),
      clozeBody (c ++ '}' :: '}' :: r) = some (c, none, r) := by
  intro c
  induction c with
  | nil =>
    intro _ _ r
    rw [List.nil_append, clozeBody, if_pos ⟨rfl, rfl⟩]
  | cons x c2 ih =>
    intro hc hb r
    have hx1 : x ≠ '}' := by intro hx; exact hb (hx ▸ List.mem_cons_self _ _)
    have hx2 : x ≠ ':' := by intro hx; exact hc (hx ▸ List.mem_cons_self _ _)
    have ih2 := ih (fun hm => hc (List.mem_cons_of_mem _ hm))
      (fun hm => hb (List.mem_cons_of_mem _ hm)) r
    rcases c2 with _ | ⟨y, c3⟩
    · rw [List.nil_append] at ih2
      rw [List.cons_append, List.nil_append, clozeBody,
        if_neg (by rintro ⟨h1, -⟩; exact hx1 h1),
        if_neg (by rintro ⟨h1, -⟩; exact hx2 h1), ih2]
      rfl
    · rw [List.cons_append] at ih2
      rw [List.cons_append, List.cons_append, clozeBody,
        if_neg (by rintro ⟨h1, -⟩; exact hx1 h1),
        if_neg (by rintro ⟨h1, -⟩; exact hx2 h1), ih2]
      rfl

theorem stripPre_self : ∀ (o r : List Char), stripPre o (o ++ r) = some r := by
  intro o
  induction o with
  | nil => intro r; rfl
  | cons a o2 ih => intro r; simp [stripPre, ih]

theorem stripPre_eq :
    ∀ {o l r : List Char}, stripPre o l = some r → l = o ++ r := by
  intro o
  induction o with
  | nil =>
    intro l r h
    simp only [stripPre, Option.some.injEq] at h
    simp [h]
  | cons a o2 ih =>
    intro l r h
    rcases l with _ | ⟨b, l2⟩
    · simp [stripPre] at h
    · rw [stripPre] at h
      split at h
      · rename_i hab
        rw [List.cons_append, hab]
        exact congrArg (b :: ·) (ih h)
      · cases h

theorem matchOrd_eq :
    ∀ {o l : List Char} {res : CM} {rest : List Char},
      matchOrd o l = some (res, rest) →
      l = res.matched ++ rest
        ∧ ∃ t, (t = 'c' ∨ t = 'C')
            ∧ res.matched = '{' :: '{' :: t :: (o ++ ':' :: ':' :: bodyChunk res.content res.hint) := by
  intro o l res rest hm
  rcases l with _ | ⟨a, _ | ⟨b, _ | ⟨t, r⟩⟩⟩ <;> try simp [matchOrd.eq_def] at hm
  obtain ⟨⟨rfl, rfl, ht⟩, hm2⟩ := hm
  rcases hsp : stripPre o r with _ | r1
  · rw [hsp] at hm2; simp at hm2
  · rw [hsp] at hm2
    rcases r1 with _ | ⟨c1, _ | ⟨c2, r2⟩⟩
    · simp at hm2
    · simp at hm2
    · simp only [] at hm2
      split at hm2
      · rename_i hcc
        obtain ⟨rfl, rfl⟩ := hcc
        rcases hcb : clozeBody r2 with _ | ⟨c, h, rest0⟩
        · rw [hcb] at hm2; simp at hm2
        · rw [hcb] at hm2
          simp only [Option.some.injEq, Prod.mk.injEq] at hm2
          obtain ⟨rfl, rfl⟩ := hm2
          have h1 := stripPre_eq hsp
          have h2 := clozeBody_eq hcb
          constructor
          · simp [h1, h2, List.append_assoc]
          · exact ⟨t, ht, rfl⟩
      · cases hm2

theorem midScan_eq :
    ∀ {l sk c rest : List Char} {h : Option (List Char)},
      midScan l = some (sk, c, h, rest) →
      l = sk ++ ':' :: ':' :: (bodyChunk c h ++ rest) := by
  intro l
  induction l with
  | nil => intro sk c rest h hm; simp [midScan] at hm
  | cons x tl ih =>
    intro sk c rest h hm
    rcases tl with _ | ⟨y, tl2⟩
    · simp [midScan] at hm
    · rw [midScan] at hm
      split at hm
      · rename_i hcc
        obtain ⟨rfl, rfl⟩ := hcc
        rcases hcb : clozeBody tl2 with _ | ⟨c0, h0, r0⟩
        · rw [hcb] at hm
          rcases hrec : midScan (':' :: tl2) with _ | ⟨sk2, c2, h2, r2⟩
          · rw [hrec] at hm; cases hm
          · rw [hrec] at hm
            simp only [Option.map_some', Option.some.injEq, Prod.mk.injEq] at hm
            obtain ⟨rfl, rfl, rfl, rfl⟩ := hm
            rw [List.cons_append]
            exact congrArg (':' :: ·) (ih hrec)
        · rw [hcb] at hm
          simp only [Option.some.injEq, Prod.mk.injEq] at hm
          obtain ⟨rfl, rfl, rfl, rfl⟩ := hm
          rw [List.nil_append]
          exact congrArg (fun u => ':' :: ':' :: u) (clozeBody_eq hcb)
      · rcases hrec : midScan (y :: tl2) with _ | ⟨sk2, c2, h2, r2⟩
        · rw [hrec] at hm; cases hm
        · rw [hrec] at hm
          simp only [Option.map_some', Option.some.injEq, Prod.mk.injEq] at hm
          obtain ⟨rfl, rfl, rfl, rfl⟩ := hm
          rw [List.cons_append]
          exact congrArg (x :: ·) (ih hrec)

theorem matchAny_eq :
    ∀ {l : List Char} {res : CM} {rest : List Char},
      matchAny l = some (res, rest) →
      l = res.matched ++ rest
        ∧ ∃ t r2, res.matched = '{' :: '{' :: t :: r2 ∧ (t = 'c' ∨ t = 'C') := by
  intro l res rest hm
  rcases l with _ | ⟨a, _ | ⟨b, _ | ⟨t, _ | ⟨x, r⟩⟩⟩⟩ <;> try simp [matchAny.eq_def] at hm
  obtain ⟨⟨rfl, rfl, ht⟩, hm2⟩ := hm
  rcases hms : midScan r with _ | ⟨sk, c, h, rest0⟩
  · rw [hms] at hm2; simp at hm2
  · rw [hms] at hm2
    simp only [Option.some.injEq, Prod.mk.injEq] at hm2
    obtain ⟨rfl, rfl⟩ := hm2
    have h1 := midScan_eq hms
    constructor
    · simp [h1, List.append_assoc]
    · exact ⟨t, _, rfl, ht⟩

theorem dotPlusBB_eq :
    ∀ {l a r : List Char}, dotPlusBB l = some (a, r) →
      l = a ++ '}' :: '}' :: r ∧ a ≠ [] ∧ '\n' ∉ a := by
  intro l
  induction l with
  | nil => intro a r hm; simp [dotPlusBB] at hm
  | cons x tl ih =>
    intro a r hm
    rcases tl with _ | ⟨y, _ | ⟨z, r3⟩⟩
    · simp [dotPlusBB] at hm
    · simp [dotPlusBB] at hm
    · rw [dotPlusBB] at hm
      split at hm
      · cases hm
      · rename_i hx
        split at hm
        · rename_i hyz
          simp only [Option.some.injEq, Prod.mk.injEq] at hm
          obtain ⟨rfl, rfl⟩ := hm
          refine ⟨by simp [hyz.1, hyz.2], by simp, ?_⟩
          simp only [List.mem_singleton]
          intro hc; exact hx hc.symm
        · rcases hrec : dotPlusBB (y :: z :: r3) with _ | ⟨a2, r2⟩
          · rw [hrec] at hm; simp at hm
          · rw [hrec] at hm
            simp only [Option.map_some', Option.some.injEq, Prod.mk.injEq] at hm
            obtain ⟨rfl, rfl⟩ := hm
            obtain ⟨he, hne, hnl⟩ := ih hrec
            refine ⟨by simp [he], by simp, ?_⟩
            simp only [List.mem_cons]
            rintro (hc | hc)
            · exact hx hc.symm
            · exact hnl hc

theorem dotPlusBB_clean :
    ∀ {u : List Char}, u ≠ [] → '\n' ∉ u → '}' ∉ u →
      ∀ (r : List Char), dotPlusBB (u ++ '}' :: '}' :: r) = some (u, r) := by
  intro u
  induction u with
  | nil => intro hne _ _ _; exact absurd rfl hne
  | cons x u2 ih =>
    intro _ hnl hnb r
    have hx1 : x ≠ '\n' := by intro hx; exact hnl (hx ▸ List.mem_cons_self _ _)
    have hx2 : x ≠ '}' := by intro hx; exact hnb (hx ▸ List.mem_cons_self _ _)
    rcases u2 with _ | ⟨y, u3⟩
    · rw [List.cons_append, List.nil_append, dotPlusBB,
        if_neg hx1, if_pos ⟨rfl, rfl⟩]
    · have hy : y ≠ '}' := by
        intro hy; exact hnb (hy ▸ List.mem_cons_of_mem _ (List.mem_cons_self _ _))
      have ih2 := ih (by simp) (fun hm => hnl (List.mem_cons_of_mem _ hm))
        (fun hm => hnb (List.mem_cons_of_mem _ hm)) r
      rcases u3 with _ | ⟨z, u4⟩
      · rw [List.cons_append] at ih2
        rw [List.cons_append, List.cons_append, List.nil_append, dotPlusBB,
          if_neg hx1, if_neg (by rintro ⟨h1, -⟩; exact hy h1)]
        rw [List.nil_append] at ih2
        rw [ih2]
        rfl
      · rw [List.cons_append] at ih2
        rw [List.cons_append, List.cons_append, List.cons_append, dotPlusBB,
          if_neg hx1, if_neg (by rintro ⟨h1, -⟩; exact hy h1)]
        rw [List.cons_append] at ih2
        rw [ih2]
        rfl

theorem takeDigits_eq : ∀ (l : List Char), l = (takeDigits l).1 ++ (takeDigits l).2 := by
  intro l
  induction l with
  | nil => rfl
  | cons x r ih =>
    by_cases hd : x.isDigit
    · simp only [takeDigits, hd, if_pos]
      exact congrArg (x :: ·) ih
    · simp [takeDigits, hd]

theorem takeDigits_digits :
    ∀ {l : List Char} {d : Char}, d ∈ (takeDigits l).1 → d.isDigit = true := by
  intro l
  induction l with
  | nil => intro d hd; simp [takeDigits] at hd
  | cons x r ih =>
    intro d hd
    by_cases hx : x.isDigit
    · simp only [takeDigits, hx, if_pos] at hd
      rcases List.mem_cons.mp hd with rfl | hm
      · exact hx
      · exact ih hm
    · simp [takeDigits, hx] at hd

theorem takeDigits_of_digits :
    ∀ {o : List Char}, (∀ d ∈ o, d.isDigit = true) →
      ∀ (r : List Char), takeDigits (o ++ ':' :: r) = (o, ':' :: r) := by
  intro o
  induction o with
  | nil => intro _ r; simp [takeDigits]
  | cons a o2 ih =>
    intro hdig r
    have ha : a.isDigit = true := hdig a (List.mem_cons_self _ _)
    rw [List.cons_append]
    simp only [takeDigits, ha, if_pos, ih (fun d hd => hdig d (List.mem_cons_of_mem _ hd)) r]

theorem matchColl_eq :
    ∀ {l : List Char} {res : CollM} {rest : List Char},
      matchColl l = some (res, rest) →
      l = res.matched ++ rest ∧ '\n' ∉ res.matched
        ∧ ∃ r2, res.matched = '{' :: '{' :: 'c' :: r2 := by
  intro l res rest hm
  rcases l with _ | ⟨a, _ | ⟨b, _ | ⟨t, r⟩⟩⟩ <;> try simp [matchColl.eq_def] at hm
  obtain ⟨⟨rfl, rfl, rfl⟩, hm2⟩ := hm
  rcases htd : takeDigits r with ⟨ds0, r1⟩
  rw [htd] at hm2
  rcases ds0 with _ | ⟨d, ds⟩
  · simp at hm2
  · simp only [] at hm2
    rcases r1 with _ | ⟨c1, _ | ⟨c2, r2⟩⟩
    · simp at hm2
    · simp at hm2
    · simp only [] at hm2
      split at hm2
      · rename_i hcc
        obtain ⟨rfl, rfl⟩ := hcc
        rcases hdb : dotPlusBB r2 with _ | ⟨cs, rest0⟩
        · rw [hdb] at hm2; simp at hm2
        · rw [hdb] at hm2
          simp only [Option.some.injEq, Prod.mk.injEq] at hm2
          obtain ⟨rfl, rfl⟩ := hm2
          have hr := takeDigits_eq r
          rw [htd] at hr
          obtain ⟨hr2, _, hnl⟩ := dotPlusBB_eq hdb
          have hdig : ∀ x ∈ d :: ds, x ≠ '\n' := by
            intro x hx heq
            have := takeDigits_digits (htd ▸ hx : x ∈ (takeDigits r).1)
            rw [heq] at this
            exact absurd this (by decide)
          refine ⟨?_, ?_, ⟨_, rfl⟩⟩
          · simp [hr, hr2, List.append_assoc]
          · intro hc
            simp at hc
            rcases hc with hc | hc | hc
            · exact hdig _ (List.mem_cons_self _ _) hc.symm
            · exact hdig '\n' (List.mem_cons_of_mem _ hc) rfl
            · exact hnl hc
      · cases hm2

theorem scanPF_nil {R : Type} (m : List Char → Option (R × List Char)) :
    ∀ (fuel : Nat), scanPF m fuel [] = ([], []) := by
  intro fuel; cases fuel <;> rfl

theorem scanPF_recompose {R : Type} (m : List Char → Option (R × List Char))
    (mf : R → List Char)
    (hm : ∀ (l : List Char) (res : R) (rest : List Char),
      m l = some (res, rest) → l = mf res ++ rest ∧ mf res ≠ []) :
    ∀ (fuel : Nat) (l : List Char), l.length ≤ fuel →
      renderP mf (scanPF m fuel l).1 (scanPF m fuel l).2 = l := by
  intro fuel
  induction fuel with
  | zero =>
    intro l hl
    have : l = [] := List.eq_nil_of_length_eq_zero (Nat.le_zero.mp hl)
    subst this
    rfl
  | succ fuel ih =>
    intro l hl
    rcases l with _ | ⟨x, r⟩
    · rfl
    · rcases hmm : m (x :: r) with _ | ⟨res, rest⟩
      · rw [scanPF, hmm]
        rcases hsc : scanPF m fuel r with ⟨ps, tail⟩
        have hrlen : r.length ≤ fuel := by
          simp only [List.length_cons] at hl; omega
        have ihr := ih r hrlen
        rw [hsc] at ihr
        rcases ps with _ | ⟨⟨lit, res2⟩, ps2⟩
        · simp only [renderP] at ihr ⊢
          rw [ihr]
        · simp only [renderP] at ihr ⊢
          rw [List.cons_append, ihr]
      · rw [scanPF, hmm]
        obtain ⟨heq, hne⟩ := hm _ _ _ hmm
        have hlen : rest.length ≤ fuel := by
          have h1 := congrArg List.length heq
          simp only [List.length_cons, List.length_append] at h1 hl
          have h2 : 0 < (mf res).length := List.length_pos.mpr hne
          omega
        have ihr := ih rest hlen
        simp only [renderP, List.nil_append]
        rw [ihr, ← heq]

theorem scanPF_all {R : Type} (m : List Char → Option (R × List Char))
    (P : R → Prop)
    (hp : ∀ (l : List Char) (res : R) (rest : List Char),
      m l = some (res, rest) → P res) :
    ∀ (fuel : Nat) (l : List Char) (p : List Char × R),
      p ∈ (scanPF m fuel l).1 → P p.2 := by
  intro fuel
  induction fuel with
  | zero => intro l p hp2; simp [scanPF] at hp2
  | succ fuel ih =>
    intro l p hp2
    rcases l with _ | ⟨x, r⟩
    · simp [scanPF] at hp2
    · rcases hmm : m (x :: r) with _ | ⟨res, rest⟩
      · rw [scanPF, hmm] at hp2
        rcases hsc : scanPF m fuel r with ⟨ps, tail⟩
        rw [hsc] at hp2
        rcases ps with _ | ⟨⟨lit, res2⟩, ps2⟩
        · simp at hp2
        · simp only [List.mem_cons] at hp2
          rcases hp2 with rfl | hp3
          · have hmem : ((lit, res2) : List Char × R) ∈ (scanPF m fuel r).1 := by
              rw [hsc]; exact List.mem_cons_self _ _
            exact ih r (lit, res2) hmem
          · have hmem : p ∈ (scanPF m fuel r).1 := by
              rw [hsc]; exact List.mem_cons_of_mem _ hp3
            exact ih r p hmem
      · rw [scanPF, hmm] at hp2
        simp only [List.mem_cons] at hp2
        rcases hp2 with rfl | hp3
        · exact hp _ _ _ hmm
        · exact ih rest _ hp3

theorem hasCOpen_tail :
    ∀ {x : Char} {l : List Char}, hasCOpen (x :: l) = false → hasCOpen l = false := by
  intro x l h
  rcases l with _ | ⟨y, _ | ⟨z, tl⟩⟩
  · rfl
  · rfl
  · rw [hasCOpen] at h
    exact (Bool.or_eq_false_iff.mp h).2

theorem matchAny_none :
    ∀ {l : List Char}, hasCOpen l = false → matchAny l = none := by
  intro l h
  rcases hma : matchAny l with _ | ⟨res, rest⟩
  · rfl
  · obtain ⟨heq, t, r2, hmt, ht⟩ := matchAny_eq hma
    rw [heq, hmt, List.cons_append, List.cons_append, List.cons_append] at h
    rw [hasCOpen] at h
    simp [ht] at h

theorem matchColl_none :
    ∀ {l : List Char}, hasCOpen l = false → matchColl l = none := by
  intro l h
  rcases hma : matchColl l with _ | ⟨res, rest⟩
  · rfl
  · obtain ⟨heq, _, r2, hmt⟩ := matchColl_eq hma
    rw [heq, hmt, List.cons_append, List.cons_append, List.cons_append] at h
    rw [hasCOpen] at h
    simp at h

theorem scanPF_nomatch {R : Type} (m : List Char → Option (R × List Char))
    (hnone : ∀ (l : List Char), hasCOpen l = false → m l = none) :
    ∀ (fuel : Nat) (l : List Char), hasCOpen l = false → scanPF m fuel l = ([], l) := by
  intro fuel
  induction fuel with
  | zero => intro l _; rfl
  | succ fuel ih =>
    intro l hl
    rcases l with _ | ⟨x, r⟩
    · rfl
    · rw [scanPF, hnone _ hl, ih r (hasCOpen_tail hl)]

theorem scanPF_single {R : Type} (m : List Char → Option (R × List Char))
    (x : Char) (r : List Char) (res : R)
    (hm : m (x :: r) = some (res, [])) :
    ∀ (fuel : Nat), scanPF m (fuel + 1) (x :: r) = ([([], res)], []) := by
  intro fuel
  rw [scanPF, hm]
  simp [scanPF_nil]

theorem pySub_single {R : Type} (m : List Char → Option (R × List Char))
    (f : R → List Char) (x : Char) (r : List Char) (res : R)
    (hm : m (x :: r) = some (res, [])) :
    pySub m f (x :: r) = f res := by
  unfold pySub
  rw [List.length_cons, scanPF_single m x r res hm]
  simp [renderP]

theorem revealAllL_nomatch {l : List Char} (h : hasCOpen l = false) :
    revealAllL l = l := by
  unfold revealAllL pySub
  rw [scanPF_nomatch matchAny (fun _ hl => matchAny_none hl) _ _ h]
  rfl

theorem dedupAux_nodup :
    ∀ (l seen : List (List Char)),
      (dedupAux seen l).Nodup ∧ ∀ x ∈ dedupAux seen l, x ∉ seen := by
  intro l
  induction l with
  | nil => intro seen; simp [dedupAux]
  | cons x r ih =>
    intro seen
    by_cases hx : x ∈ seen
    · simpa [dedupAux, hx] using ih seen
    · obtain ⟨hnd, hns⟩ := ih (x :: seen)
      simp only [dedupAux, hx, if_neg, ite_false]
      constructor
      · refine List.nodup_cons.mpr ⟨?_, hnd⟩
        intro hmem
        exact hns x hmem (List.mem_cons_self _ _)
      · intro y hy
        rcases List.mem_cons.mp hy with rfl | hy2
        · exact hx
        · intro hys
          exact hns y hy2 (List.mem_cons_of_mem _ hys)

/-! ## Claims about expand_clozes -/

/-- C2: `expand_clozes` returns one question-style variant per distinct
collected ordinal (the collected ordinal list has no duplicates),
followed by exactly one fully revealed variant appended last, so the
result always has at least one element. -/
theorem C2_expansion_structure :
    ∀ s : String,
      expandClozes s = (collOrds s).map (fun o => qaVariant o s) ++ [revealAll s]
      ∧ (expandClozes s).length = (collOrds s).length + 1
      ∧ 0 < (expandClozes s).length
      ∧ (collOrds s).Nodup
      ∧ (expandClozes s).getLast? = some (revealAll s) := by
  intro s
  refine ⟨rfl, ?_, ?_, ?_, ?_⟩
  · simp [expandClozes]
  · simp [expandClozes]
  · exact (dedupAux_nodup _ _).1
  · rw [expandClozes, List.getLast?_concat]

/-- C3: in the question-style substitution for ordinal `o`, every
rewritten (masked) span carries exactly the digit sequence `o` after its
`{{c` opener, so a marker with a different ordinal — in particular
`{{c10::x}}` while masking ordinal `1` — is never masked. -/
theorem C3_exact_ordinal_match :
    (∀ (o : List Char) (s : String) (p : List Char × CM),
        (∀ d ∈ o, d.isDigit = true) →
        p ∈ qPieces o s →
        (takeDigits (p.2.matched.drop 3)).1 = o)
    ∧ pySub (matchOrd ['1']) qreplC "{{c10::x}}".data = "{{c10::x}}".data := by
  constructor
  · intro o s p ho hp
    refine scanPF_all (matchOrd o)
      (fun res => (takeDigits (res.matched.drop 3)).1 = o) ?_ _ _ p hp
    intro l res rest hm
    obtain ⟨-, t, ht, hmt⟩ := matchOrd_eq hm
    rw [hmt]
    simp only [List.drop_succ_cons, List.drop_zero]
    rw [takeDigits_of_digits ho]
  · decide

theorem C3_witness :
    (takeDigits ((CM.mk "{{c1::x}}".data ['x'] none).matched.drop 3)).1 = ['1'] :=
  C3_exact_ordinal_match.1 ['1'] "{{c1::x}}" ([], ⟨"{{c1::x}}".data, ['x'], none⟩)
    (by decide) (by decide)

/-- C6 (counterexample): on `"{{cX::hi}}"` the input contains no cloze
marker in the spec's `{{c<digits>::...}}` sense (the spec-side reveal
leaves it unchanged), yet `expand_clozes` returns the single variant
`"hi"`, which differs from the input — refuting both halves of the
claim. -/
theorem C6_counterexample :
    expandClozes "{{cX::hi}}" = ["hi"]
    ∧ specRevealAll "{{cX::hi}}" = "{{cX::hi}}"
    ∧ ("hi" : String) ≠ "{{cX::hi}}" :=
  ⟨by decide, by decide, by decide⟩

/-- C6 (amended): the last variant of `expand_clozes` is always the
answer-pattern substitution of the input (whose `{{c<lazy>::` pattern
can also rewrite spans with a non-digit tag portion), and an input with
no `{{c`/`{{C` occurrence yields exactly one variant identical to the
input. -/
theorem C6_last_variant_reveal :
    (∀ s : String, (expandClozes s).getLast? = some (revealAll s))
    ∧ (∀ s : String, hasCOpen s.data = false → expandClozes s = [s]) := by
  constructor
  · intro s
    rw [expandClozes, List.getLast?_concat]
  · intro s hs
    have h1 : collMatchesL s.data = [] := by
      unfold collMatchesL
      rw [scanPF_nomatch matchColl (fun _ hl => matchColl_none hl) _ _ hs]
    have h2 := revealAllL_nomatch hs
    unfold expandClozes collOrds
    rw [h1]
    simp only [List.map_nil, dedupAux, List.nil_append]
    rw [revealAll, h2, strMk_data]

theorem C6_witness : expandClozes "no clozes here" = ["no clozes here"] :=
  C6_last_variant_reveal.2 "no clozes here" (by decide)

/-- C7 (counterexample): for the input `{{c1::a` newline `b}}` (braces written
as hex escapes in the statement below) — a marker whose content
spans a newline — the collection scan finds no ordinal, so no
question-style variant is produced for ordinal `1`; the whole result is
the single revealed variant. -/
theorem C7_counterexample :
    collOrds "\x7b\x7bc1::a\nb\x7d\x7d" = []
    ∧ expandClozes "\x7b\x7bc1::a\nb\x7d\x7d" = ["a\nb"] :=
  ⟨by decide, by decide⟩

/-- C7 (amended): the substitution pattern spans newlines — the marker
is still substituted in every variant — but the ordinal-collection scan
never matches across a newline: no collected match contains `'\n'`, so
a marker whose content spans a newline contributes no ordinal and gets
no question-style variant. -/
theorem C7_collection_no_newline :
    (∀ (l : List Char) (p : List Char × CollM), p ∈ collMatchesL l → '\n' ∉ p.2.matched)
    ∧ revealAll "\x7b\x7bc1::a\nb\x7d\x7d" = "a\nb"
    ∧ expandClozes "\x7b\x7bc1::a\nb\x7d\x7d" = ["a\nb"] := by
  refine ⟨?_, by decide, by decide⟩
  intro l p hp
  exact scanPF_all matchColl (fun res => '\n' ∉ res.matched)
    (fun _ _ _ hm => (matchColl_eq hm).2.1) _ _ p hp

theorem C7_witness : '\n' ∉ (CollM.mk "{{c1::x}}".data ['1']).matched :=
  C7_collection_no_newline.1 "{{c1::x}}".data ([], ⟨"{{c1::x}}".data, ['1']⟩) (by decide)

/-- C10 (counterexample): on the nested input `{{c{{c1::x}}::y}}` (braces written as hex
escapes in the statement below), the answer-pattern scan of the input matches `{{c{{c1::x}}` and leaves
the trailing literal `"::y\x7d\x7d"` outside every match, but the ordinal-1
variant is `"y"`, which does not preserve that outside text — the
per-variant frame claim fails. -/
theorem C10_counterexample :
    expandClozes "\x7b\x7bc\x7b\x7bc1::x\x7d\x7d::y\x7d\x7d" = ["y", "x::y\x7d\x7d"]
    ∧ ¬ (∀ v ∈ expandClozes "\x7b\x7bc\x7b\x7bc1::x\x7d\x7d::y\x7d\x7d", VariantPreserves "\x7b\x7bc\x7b\x7bc1::x\x7d\x7d::y\x7d\x7d" v) := by
  refine ⟨by decide, ?_⟩
  intro hAll
  obtain ⟨reps, hlen, heq⟩ := hAll "y" (by decide)
  have hp : anyPieces "\x7b\x7bc\x7b\x7bc1::x\x7d\x7d::y\x7d\x7d" = [([], ⟨"\x7b\x7bc\x7b\x7bc1::x\x7d\x7d".data, ['x'], none⟩)] := by
    decide
  have ht : anyTail "\x7b\x7bc\x7b\x7bc1::x\x7d\x7d::y\x7d\x7d" = "::y\x7d\x7d".data := by decide
  rw [hp] at hlen heq
  rw [ht] at heq
  rcases reps with _ | ⟨rep, reps2⟩
  · simp at hlen
  · rcases reps2 with _ | ⟨rep2, reps3⟩
    · simp only [renderW, List.nil_append] at heq
      have hlen2 := congrArg List.length heq
      simp only [List.length_cons, List.length_nil, List.length_append] at hlen2
      omega
    · simp at hlen

/-- C10 (amended): each single substitution pass — the question pass for
any ordinal and the answer pass — rewrites only the spans its pattern
matches: reassembling the scan's pieces with the original matched spans
gives back exactly the input, every rewritten span starts with a `{{c`
or `{{C` opener, and the revealed variant is the reassembly with each
matched span replaced by its content.  (The per-variant claim fails
only because a variant is two consecutive passes: the second pass can
rewrite text outside the first pass's matches, as the counterexample
shows.) -/
theorem C10_single_pass_frame :
    ∀ (s : String) (o : List Char),
      renderP CM.matched (anyPieces s) (anyTail s) = s.data
      ∧ renderP CM.matched (qPieces o s) (qTail o s) = s.data
      ∧ (revealAll s).data = renderP areplC (anyPieces s) (anyTail s)
      ∧ ∀ p ∈ anyPieces s, ∃ t r2, p.2.matched = '{' :: '{' :: t :: r2 ∧ (t = 'c' ∨ t = 'C') := by
  intro s o
  refine ⟨?_, ?_, rfl, ?_⟩
  · exact scanPF_recompose matchAny CM.matched
      (fun l res rest hm => ⟨(matchAny_eq hm).1, by
        obtain ⟨-, t, r2, hmt, -⟩ := matchAny_eq hm
        rw [hmt]; simp⟩) _ _ (Nat.le_succ _)
  · exact scanPF_recompose (matchOrd o) CM.matched
      (fun l res rest hm => ⟨(matchOrd_eq hm).1, by
        obtain ⟨-, t, -, hmt⟩ := matchOrd_eq hm
        rw [hmt]; simp⟩) _ _ (Nat.le_succ _)
  · intro p hp
    exact scanPF_all matchAny
      (fun res => ∃ t r2, res.matched = '{' :: '{' :: t :: r2 ∧ (t = 'c' ∨ t = 'C'))
      (fun _ _ _ hm => (matchAny_eq hm).2) _ _ p hp

theorem C10_witness :
    ∃ t r2, (CM.mk "{{c1::x}}".data ['x'] none).matched = '{' :: '{' :: t :: r2
      ∧ (t = 'c' ∨ t = 'C') :=
  (C10_single_pass_frame "{{c1::x}}" ['1']).2.2.2 ([], ⟨"{{c1::x}}".data, ['x'], none⟩)
    (by decide)

/-! ## Well-formed single-marker computations (used for C8) -/

theorem hasCOpen_no_brace : ∀ {l : List Char}, '{' ∉ l → hasCOpen l = false := by
  intro l
  induction l with
  | nil => intro _; rfl
  | cons x tl ih =>
    intro hnb
    rcases tl with _ | ⟨y, _ | ⟨z, tl2⟩⟩
    · rfl
    · rfl
    · rw [hasCOpen]
      have hx : x ≠ '{' := by intro hx; exact hnb (hx ▸ List.mem_cons_self _ _)
      have ht := ih (fun hm => hnb (List.mem_cons_of_mem _ hm))
      simp only [Bool.or_eq_false_iff]
      refine ⟨?_, ht⟩
      rw [decide_eq_false_iff_not]
      rintro ⟨h1, -⟩
      exact hx h1

theorem matchColl_clean (u r : List Char) (hne : u ≠ []) (hnl : '\n' ∉ u) (hnb : '}' ∉ u) :
    matchColl ('{' :: '{' :: 'c' :: '1' :: ':' :: ':' :: (u ++ '}' :: '}' :: r))
      = some (⟨'{' :: '{' :: 'c' :: '1' :: ':' :: ':' :: (u ++ ['}', '}']), ['1']⟩, r) := by
  have htd : takeDigits ('1' :: ':' :: ':' :: (u ++ '}' :: '}' :: r))
      = (['1'], ':' :: ':' :: (u ++ '}' :: '}' :: r)) := by
    simpa using takeDigits_of_digits (o := ['1']) (by decide) (':' :: (u ++ '}' :: '}' :: r))
  rw [matchColl.eq_def]
  simp only [htd, dotPlusBB_clean hne hnl hnb r]
  simp

theorem matchOrd_clean_hint (c h r : List Char) (hc1 : ':' ∉ c) (hc2 : '}' ∉ c)
    (hh : '}' ∉ h) :
    matchOrd ['1'] ('{' :: '{' :: 'c' :: '1' :: ':' :: ':' :: (c ++ ':' :: ':' :: (h ++ '}' :: '}' :: r)))
      = some (⟨'{' :: '{' :: 'c' :: '1' :: ':' :: ':' :: bodyChunk c (some h), c, some h⟩, r) := by
  have hsp : stripPre ['1'] ('1' :: ':' :: ':' :: (c ++ ':' :: ':' :: (h ++ '}' :: '}' :: r)))
      = some (':' :: ':' :: (c ++ ':' :: ':' :: (h ++ '}' :: '}' :: r))) := by
    simpa using stripPre_self ['1'] (':' :: ':' :: (c ++ ':' :: ':' :: (h ++ '}' :: '}' :: r)))
  rw [matchOrd.eq_def]
  simp only [hsp, clozeBody_clean_hint hc1 hc2 hh r]
  simp

theorem matchOrd_clean_nohint (c r : List Char) (hc1 : ':' ∉ c) (hc2 : '}' ∉ c) :
    matchOrd ['1'] ('{' :: '{' :: 'c' :: '1' :: ':' :: ':' :: (c ++ '}' :: '}' :: r))
      = some (⟨'{' :: '{' :: 'c' :: '1' :: ':' :: ':' :: bodyChunk c none, c, none⟩, r) := by
  have hsp : stripPre ['1'] ('1' :: ':' :: ':' :: (c ++ '}' :: '}' :: r))
      = some (':' :: ':' :: (c ++ '}' :: '}' :: r)) := by
    simpa using stripPre_self ['1'] (':' :: ':' :: (c ++ '}' :: '}' :: r))
  rw [matchOrd.eq_def]
  simp only [hsp, clozeBody_clean_nohint hc1 hc2 r]
  simp

theorem matchAny_clean (u cc : List Char) (hh : Option (List Char)) (rr : List Char)
    (hcb : clozeBody u = some (cc, hh, rr)) :
    matchAny ('{' :: '{' :: 'c' :: '1' :: ':' :: ':' :: u)
      = some (⟨'{' :: '{' :: 'c' :: '1' :: ':' :: ':' :: bodyChunk cc hh, cc, hh⟩, rr) := by
  have hms : midScan (':' :: ':' :: u) = some ([], cc, hh, rr) := by
    rw [midScan.eq_def]
    simp only [hcb]
    simp
  rw [matchAny.eq_def]
  simp only [hms]
  simp

/-- C8 (counterexample): for `"{{c1::x::}}"` the hint segment is
supplied but empty; Python truthiness sends the masked replacement to
`"[...]"` instead of the claimed `"[]"`. -/
theorem C8_counterexample :
    expandClozes "{{c1::x::}}" = ["[...]", "x"]
    ∧ ("[...]" : String) ≠ "[]" :=
  ⟨by decide, by decide⟩

/-- C8 (amended): for a well-formed single marker, the masked
replacement is `"[hint]"` only when the supplied hint is non-empty; an
empty hint behaves exactly like an absent hint, both producing the
literal `"[...]"`. -/
theorem C8_hint_semantics :
    ∀ (c h : List Char),
      ':' ∉ c → '}' ∉ c → '\n' ∉ c → '{' ∉ h → '}' ∉ h → '\n' ∉ h →
      (expandClozes (String.mk ('{' :: '{' :: 'c' :: '1' :: ':' :: ':' :: (c ++ ':' :: ':' :: (h ++ ['}', '}']))))
        = [String.mk (if h = [] then ['[', '.', '.', '.', ']'] else '[' :: (h ++ [']'])), String.mk c])
      ∧ (c ≠ [] →
        expandClozes (String.mk ('{' :: '{' :: 'c' :: '1' :: ':' :: ':' :: (c ++ ['}', '}'])))
          = [String.mk ['[', '.', '.', '.', ']'], String.mk c]) := by
  intro c h hc1 hc2 hc3 hh1 hh2 hh3
  constructor
  · -- hint present (possibly empty)
    have hmid : c ++ ':' :: ':' :: (h ++ '}' :: '}' :: ([] : List Char))
        = (c ++ ':' :: ':' :: h) ++ '}' :: '}' :: ([] : List Char) := by
      simp
    have hu1 : (c ++ ':' :: ':' :: h) ≠ [] := by simp
    have hu2 : '\n' ∉ c ++ ':' :: ':' :: h := by
      intro hm
      rcases List.mem_append.mp hm with h1 | h1
      · exact hc3 h1
      · rcases List.mem_cons.mp h1 with h2 | h2
        · exact absurd h2 (by decide)
        · rcases List.mem_cons.mp h2 with h3 | h3
          · exact absurd h3 (by decide)
          · exact hh3 h3
    have hu3 : '}' ∉ c ++ ':' :: ':' :: h := by
      intro hm
      rcases List.mem_append.mp hm with h1 | h1
      · exact hc2 h1
      · rcases List.mem_cons.mp h1 with h2 | h2
        · exact absurd h2 (by decide)
        · rcases List.mem_cons.mp h2 with h3 | h3
          · exact absurd h3 (by decide)
          · exact hh2 h3
    have hcoll := matchColl_clean (c ++ ':' :: ':' :: h) [] hu1 hu2 hu3
    rw [← hmid] at hcoll
    have hscan : collMatchesL ('{' :: '{' :: 'c' :: '1' :: ':' :: ':' :: (c ++ ':' :: ':' :: (h ++ ['}', '}'])))
        = [([], ⟨'{' :: '{' :: 'c' :: '1' :: ':' :: ':' :: (c ++ ':' :: ':' :: (h ++ ['}', '}'])), ['1']⟩)] := by
      unfold collMatchesL
      rw [scanPF_single matchColl _ _ _ hcoll]
    have hq : pySub (matchOrd ['1']) qreplC
        ('{' :: '{' :: 'c' :: '1' :: ':' :: ':' :: (c ++ ':' :: ':' :: (h ++ ['}', '}'])))
        = qreplC ⟨'{' :: '{' :: 'c' :: '1' :: ':' :: ':' :: bodyChunk c (some h), c, some h⟩ :=
      pySub_single _ _ _ _ _ (matchOrd_clean_hint c h [] hc1 hc2 hh2)
    have hqv : qreplC ⟨'{' :: '{' :: 'c' :: '1' :: ':' :: ':' :: bodyChunk c (some h), c, some h⟩
        = if h = [] then ['[', '.', '.', '.', ']'] else '[' :: (h ++ [']']) := rfl
    have hnom : hasCOpen (if h = [] then ['[', '.', '.', '.', ']'] else '[' :: (h ++ [']'])) = false := by
      by_cases hh0 : h = []
      · simp only [hh0, if_pos]
        decide
      · simp only [hh0, if_neg, ite_false]
        apply hasCOpen_no_brace
        intro hm
        rcases List.mem_cons.mp hm with h2 | h2
        · exact absurd h2 (by decide)
        · rcases List.mem_append.mp h2 with h3 | h3
          · exact hh1 h3
          · rcases List.mem_cons.mp h3 with h4 | h4
            · exact absurd h4 (by decide)
            · simp at h4
    have ha : revealAllL ('{' :: '{' :: 'c' :: '1' :: ':' :: ':' :: (c ++ ':' :: ':' :: (h ++ ['}', '}'])))
        = c := by
      unfold revealAllL
      rw [pySub_single _ _ _ _ _ (matchAny_clean _ _ _ _ (clozeBody_clean_hint hc1 hc2 hh2 []))]
      rfl
    have hords : collOrds (String.mk ('{' :: '{' :: 'c' :: '1' :: ':' :: ':' :: (c ++ ':' :: ':' :: (h ++ ['}', '}']))))
        = [['1']] := by
      simp only [collOrds, strData_mk, hscan, List.map_cons, List.map_nil]
      decide
    simp only [expandClozes, hords, List.map_cons, List.map_nil, qaVariant, revealAll, strData_mk]
    rw [hq, hqv]
    rw [revealAllL_nomatch hnom, ha]
    rfl
  · -- hint absent
    intro hcne
    have hcoll := matchColl_clean c [] hcne hc3 hc2
    have hscan : collMatchesL ('{' :: '{' :: 'c' :: '1' :: ':' :: ':' :: (c ++ ['}', '}']))
        = [([], ⟨'{' :: '{' :: 'c' :: '1' :: ':' :: ':' :: (c ++ ['}', '}']), ['1']⟩)] := by
      unfold collMatchesL
      rw [scanPF_single matchColl _ _ _ hcoll]
    have hq : pySub (matchOrd ['1']) qreplC
        ('{' :: '{' :: 'c' :: '1' :: ':' :: ':' :: (c ++ ['}', '}']))
        = qreplC ⟨'{' :: '{' :: 'c' :: '1' :: ':' :: ':' :: bodyChunk c none, c, none⟩ :=
      pySub_single _ _ _ _ _ (matchOrd_clean_nohint c [] hc1 hc2)
    have ha : revealAllL ('{' :: '{' :: 'c' :: '1' :: ':' :: ':' :: (c ++ ['}', '}'])) = c := by
      unfold revealAllL
      rw [pySub_single _ _ _ _ _ (matchAny_clean _ _ _ _ (clozeBody_clean_nohint hc1 hc2 []))]
      rfl
    have hords : collOrds (String.mk ('{' :: '{' :: 'c' :: '1' :: ':' :: ':' :: (c ++ ['}', '}'])))
        = [['1']] := by
      simp only [collOrds, strData_mk, hscan, List.map_cons, List.map_nil]
      decide
    have hqv : qreplC ⟨'{' :: '{' :: 'c' :: '1' :: ':' :: ':' :: bodyChunk c none, c, none⟩
        = ['[', '.', '.', '.', ']'] := rfl
    simp only [expandClozes, hords, List.map_cons, List.map_nil, qaVariant, revealAll, strData_mk]
    rw [hq, hqv]
    rw [revealAllL_nomatch (by decide), ha]
    rfl

theorem C8_witness :
    expandClozes (String.mk ('{' :: '{' :: 'c' :: '1' :: ':' :: ':' :: (['x'] ++ ':' :: ':' :: (['h', 'i'] ++ ['}', '}']))))
      = [String.mk ('[' :: (['h', 'i'] ++ [']'])), String.mk ['x']] := by
  have hx := (C8_hint_semantics ['x'] ['h', 'i'] (by decide) (by decide) (by decide)
    (by decide) (by decide) (by decide)).1
  simpa using hx

end AnkiTemplate
